import Mathlib

/-!
Verification of the event-deduplication and conditional-alert engine of
`monitor.py` (polyMonster repository).

The Python source is shallowly embedded: the global mutable `seen_ids` set
becomes explicit state passed through pure functions, numeric values that the
code obtains with `float(...)` on decimal strings are modelled as exact
rationals (`ℚ`), JSON payload fields that may be absent are `Option`s, and
code paths that raise an exception to the enclosing `try/except` are modelled
with `Option`/`none` results.
-/

/-- A Python value usable as an event identifier, as produced by
`event.get('id')`: absent key gives `None`, otherwise the API returns a
string or an integer.  `none` models Python `None`. -/
inductive PyId where
  | none : PyId
  | str (s : String) : PyId
  | int (n : ℤ) : PyId
deriving DecidableEq, Repr

/-- Python truthiness of a `PyId`, as tested by `if event_id and ...` in
`check_new_events`: `None`, the empty string and the integer 0 are falsy. -/
def truthyId : PyId → Bool
  | .none => false
  | .str s => s ≠ ""
  | .int n => n ≠ 0

/-- How a market's `outcomePrices` field is encoded upstream: either a native
JSON list of decimal strings or a single string containing a JSON-encoded
list (the two cases distinguished by `isinstance` checks in the source). -/
inductive PriceField where
  | list (l : List String) : PriceField
  | str (s : String) : PriceField
deriving DecidableEq, Repr

/-- One sub-market of an upstream event object (`event['markets'][i]`).
Absent JSON keys are `none`; the numeric fields are kept as the decimal
strings the API delivers, since the source converts them with `float(...)`
only at use sites. -/
structure JMarket where
  outcomePrices : Option PriceField
  liquidity : Option String
  volume : Option String
  endDateIso : Option String
deriving DecidableEq, Repr

/-- An upstream event object as consumed by `monitor.py`:
`{id, title, slug, markets}`. -/
structure JEvent where
  id : PyId
  title : Option String
  slug : Option String
  markets : List JMarket
deriving DecidableEq, Repr

/-- The message built for one new market in `check_new_events`
(`f"🆕 **New Market Created!**..."`), with the `slug`-truthiness guard for
the URL. -/
def newMarketMessage (ev : JEvent) : String :=
  let title := ev.title.getD "Unknown Event"
  let slug := ev.slug.getD ""
  let url := if slug ≠ "" then "https://polymarket.com/event/" ++ slug else "N/A"
  "🆕 **New Market Created!**\n\n**" ++ title ++ "**\n\n[View on Polymarket](" ++ url ++ ")"

/-- One iteration of the loop body of `check_new_events`: state is the seen
set plus the sequence of events for which a notification has been sent so
far.  The guard is `if event_id and event_id not in seen_ids`; inside it, a
notification is sent only `if seen_ids` (set non-empty before this add), and
the identifier is then added unconditionally. -/
def checkStep (st : Finset PyId × List JEvent) (ev : JEvent) : Finset PyId × List JEvent :=
  if truthyId ev.id ∧ ev.id ∉ st.1 then
    (insert ev.id st.1, if st.1.Nonempty then st.2 ++ [ev] else st.2)
  else st

/-- `check_new_events` on one fetched batch: the batch arrives newest-first
and the loop runs over `reversed(events)`.  Returns the new seen set and the
list of events notified, in emission order (each element `ev` stands for one
`send_message` of `newMarketMessage ev`). -/
def checkNewEvents (seen : Finset PyId) (events : List JEvent) : Finset PyId × List JEvent :=
  events.reverse.foldl checkStep (seen, [])

/-- The startup initialization loop in `main`:
`for event in initial_events: seen_ids.add(event.get('id'))` — note it adds
the raw identifier with no truthiness guard. -/
def initSeenIds (seen : Finset PyId) (events : List JEvent) : Finset PyId :=
  events.foldl (fun s ev => insert ev.id s) seen

/-- One operation touching the seen set during a run: the startup
initialization or one background `check_new_events` tick. -/
inductive MonOp where
  | init (batch : List JEvent) : MonOp
  | check (batch : List JEvent) : MonOp

/-- Apply one operation to (seen set, cumulative notification trace). -/
def applyOp (st : Finset PyId × List JEvent) : MonOp → Finset PyId × List JEvent
  | .init b => (initSeenIds st.1 b, st.2)
  | .check b =>
      let r := checkNewEvents st.1 b
      (r.1, st.2 ++ r.2)

/-- Run a sequence of operations from an initial seen set, collecting every
notification emitted across the whole run. -/
def runOps (seen : Finset PyId) (ops : List MonOp) : Finset PyId × List JEvent :=
  ops.foldl applyOp (seen, [])

/-! ### Invariants of the `check_new_events` fold -/

lemma checkFold_spec (evs : List JEvent) :
    ∀ st : Finset PyId × List JEvent,
      st.1 ⊆ (evs.foldl checkStep st).1
    ∧ (∀ i : PyId, ¬ truthyId i → (i ∈ (evs.foldl checkStep st).1 ↔ i ∈ st.1))
    ∧ ∃ t, (evs.foldl checkStep st).2 = st.2 ++ t
        ∧ (t.map JEvent.id).Nodup
        ∧ (∀ ev ∈ t, truthyId ev.id ∧ ev.id ∉ st.1 ∧ ev.id ∈ (evs.foldl checkStep st).1) := by
  induction evs with
  | nil =>
      intro st
      refine ⟨Finset.Subset.refl _, fun i _ => Iff.rfl, [], by simp, by simp, by simp⟩
  | cons ev evs ih =>
      intro st
      rw [List.foldl_cons]
      by_cases hg : truthyId ev.id ∧ ev.id ∉ st.1
      · have hstep : checkStep st ev =
            (insert ev.id st.1, if st.1.Nonempty then st.2 ++ [ev] else st.2) := by
          simp [checkStep, hg]
        obtain ⟨ihmono, ihfalsy, t', ht', hnd', hprop'⟩ := ih (checkStep st ev)
        have hmono1 : (checkStep st ev).1 = insert ev.id st.1 := by rw [hstep]
        refine ⟨?_, ?_, ?_⟩
        · intro a ha
          exact ihmono (by rw [hmono1]; exact Finset.mem_insert_of_mem ha)
        · intro i hi
          have h1 := ihfalsy i hi
          rw [hmono1] at h1
          rw [h1, Finset.mem_insert]
          constructor
          · rintro (rfl | h)
            · exact absurd hg.1 (by simpa using hi)
            · exact h
          · exact Or.inr
        · by_cases hne : st.1.Nonempty
          · refine ⟨ev :: t', ?_, ?_, ?_⟩
            · rw [ht', hstep]; simp [hne]
            · simp only [List.map_cons, List.nodup_cons]
              refine ⟨?_, hnd'⟩
              intro hmem
              obtain ⟨e', he'mem, he'id⟩ := List.mem_map.mp hmem
              have := (hprop' e' he'mem).2.1
              rw [hmono1] at this
              exact this (he'id ▸ Finset.mem_insert_self _ _)
            · intro e' he'
              rcases List.mem_cons.mp he' with rfl | hmem
              · refine ⟨hg.1, hg.2, ?_⟩
                exact ihmono (by rw [hmono1]; exact Finset.mem_insert_self _ _)
              · obtain ⟨h1, h2, h3⟩ := hprop' e' hmem
                rw [hmono1] at h2
                exact ⟨h1, fun hc => h2 (Finset.mem_insert_of_mem hc), h3⟩
          · refine ⟨t', ?_, hnd', ?_⟩
            · rw [ht', hstep]; simp [hne]
            · intro e' he'
              obtain ⟨h1, h2, h3⟩ := hprop' e' he'
              rw [hmono1] at h2
              exact ⟨h1, fun hc => h2 (Finset.mem_insert_of_mem hc), h3⟩
      · have hstep : checkStep st ev = st := by simp [checkStep, hg]
        rw [hstep]
        exact ih st

lemma checkNewEvents_seen_mono (seen : Finset PyId) (events : List JEvent) :
    seen ⊆ (checkNewEvents seen events).1 :=
  (checkFold_spec events.reverse (seen, [])).1

lemma checkNewEvents_trace_spec (seen : Finset PyId) (events : List JEvent) :
    ((checkNewEvents seen events).2.map JEvent.id).Nodup
    ∧ ∀ ev ∈ (checkNewEvents seen events).2,
        truthyId ev.id ∧ ev.id ∉ seen ∧ ev.id ∈ (checkNewEvents seen events).1 := by
  obtain ⟨-, -, t, ht, hnd, hprop⟩ := checkFold_spec events.reverse (seen, [])
  have ht2 : (checkNewEvents seen events).2 = t := by
    simpa [checkNewEvents] using ht
  rw [ht2]
  exact ⟨hnd, fun ev hev => hprop ev hev⟩

lemma initSeenIds_mono (seen : Finset PyId) (events : List JEvent) :
    seen ⊆ initSeenIds seen events := by
  induction events generalizing seen with
  | nil => simp [initSeenIds]
  | cons ev evs ih =>
      intro a ha
      exact ih (insert ev.id seen) (Finset.mem_insert_of_mem ha)

lemma initSeenIds_mem (seen : Finset PyId) (events : List JEvent) :
    ∀ ev ∈ events, ev.id ∈ initSeenIds seen events := by
  induction events generalizing seen with
  | nil => simp
  | cons e evs ih =>
      intro ev hev
      rcases List.mem_cons.mp hev with rfl | hmem
      · exact initSeenIds_mono (insert ev.id seen) evs (Finset.mem_insert_self _ _)
      · exact ih (insert e.id seen) ev hmem

lemma checkFold_all_new (evs : List JEvent) :
    ∀ (seen : Finset PyId) (tr : List JEvent),
      seen.Nonempty →
      (∀ ev ∈ evs, truthyId ev.id ∧ ev.id ∉ seen) →
      (evs.map JEvent.id).Nodup →
      (evs.foldl checkStep (seen, tr)).2 = tr ++ evs := by
  induction evs with
  | nil => intro seen tr _ _ _; simp
  | cons ev evs ih =>
      intro seen tr hne h hnd
      have hg : truthyId ev.id ∧ ev.id ∉ seen := h ev (List.mem_cons_self _ _)
      have hstep : checkStep (seen, tr) ev = (insert ev.id seen, tr ++ [ev]) := by
        simp [checkStep, hg, hne]
      rw [List.foldl_cons, hstep]
      simp only [List.map_cons, List.nodup_cons] at hnd
      have h' : ∀ e ∈ evs, truthyId e.id ∧ e.id ∉ insert ev.id seen := by
        intro e he
        obtain ⟨h1, h2⟩ := h e (List.mem_cons_of_mem _ he)
        refine ⟨h1, ?_⟩
        rw [Finset.mem_insert]
        rintro (heq | hmem)
        · exact hnd.1 (heq ▸ List.mem_map_of_mem JEvent.id he)
        · exact h2 hmem
      rw [ih (insert ev.id seen) (tr ++ [ev]) (Finset.insert_nonempty _ _) h' hnd.2]
      simp

lemma runOps_spec (ops : List MonOp) :
    ∀ st : Finset PyId × List JEvent,
      (st.2.map JEvent.id).Nodup → (∀ ev ∈ st.2, ev.id ∈ st.1) →
      ((ops.foldl applyOp st).2.map JEvent.id).Nodup
      ∧ (∀ ev ∈ (ops.foldl applyOp st).2, ev.id ∈ (ops.foldl applyOp st).1) := by
  induction ops with
  | nil => intro st h1 h2; exact ⟨h1, h2⟩
  | cons op ops ih =>
      intro st h1 h2
      rw [List.foldl_cons]
      cases op with
      | init b =>
          refine ih _ h1 ?_
          intro ev hev
          exact initSeenIds_mono st.1 b (h2 ev hev)
      | check b =>
          obtain ⟨hnd, hprop⟩ := checkNewEvents_trace_spec st.1 b
          refine ih _ ?_ ?_
          · show ((st.2 ++ (checkNewEvents st.1 b).2).map JEvent.id).Nodup
            rw [List.map_append, List.nodup_append]
            refine ⟨h1, hnd, ?_⟩
            intro i hi hi'
            obtain ⟨e1, he1, rfl⟩ := List.mem_map.mp hi
            obtain ⟨e2, he2, heq⟩ := List.mem_map.mp hi'
            exact (hprop e2 he2).2.1 (heq ▸ h2 e1 he1)
          · intro ev hev
            show ev.id ∈ (checkNewEvents st.1 b).1
            rcases List.mem_append.mp hev with hmem | hmem
            · exact checkNewEvents_seen_mono st.1 b (h2 ev hmem)
            · exact (hprop ev hmem).2.2

lemma checkFold_all_seen (evs : List JEvent) :
    ∀ st : Finset PyId × List JEvent, (∀ ev ∈ evs, ev.id ∈ st.1) →
      evs.foldl checkStep st = st := by
  induction evs with
  | nil => intro st _; rfl
  | cons ev evs ih =>
      intro st h
      have hstep : checkStep st ev = st := by
        simp [checkStep, h ev (List.mem_cons_self _ _)]
      show evs.foldl checkStep (checkStep st ev) = st
      rw [hstep]
      exact ih st (fun e he => h e (List.mem_cons_of_mem _ he))

/-! ### Decimal-string parsing (Python `float(...)` on API decimal strings)

The source converts the API's decimal strings with `float(...)`; the model
parses them into exact rationals.  A string Python's `float` would reject
(and hence a `try/except`-guarded call would skip, or an unguarded call
would abort on) parses to `none`. -/

/-- Numeric value of a decimal digit character. -/
def digitVal (c : Char) : ℕ := c.toNat - 48

/-- Value of a list of decimal digit characters, most significant first. -/
def digitsToNat (cs : List Char) : ℕ := cs.foldl (fun a c => a * 10 + digitVal c) 0

/-- Parse a decimal string the way Python `float` reads plain decimals:
optional sign, integer digits, optional fractional part; at least one digit
overall.  The value is kept exact as a rational. -/
def parseDecimal (s : String) : Option ℚ :=
  let p : ℚ × List Char :=
    match s.data with
    | '-' :: r => (-1, r)
    | '+' :: r => (1, r)
    | cs => (1, cs)
  let ip := p.2.takeWhile Char.isDigit
  match p.2.dropWhile Char.isDigit with
  | [] => if ip.isEmpty then none else some (p.1 * digitsToNat ip)
  | '.' :: fp =>
      if fp.all Char.isDigit ∧ (ip ≠ [] ∨ fp ≠ []) then
        some (p.1 * ((digitsToNat ip : ℚ) + (digitsToNat fp : ℚ) / 10 ^ fp.length))
      else none
  | _ => none

/-! ### JSON-encoded price lists (`json.loads` on `outcomePrices` strings)

`outcomePrices` may arrive as a single string holding a JSON-encoded list of
strings; the source detects this with `isinstance(..., str)` and calls
`json.loads`, falling back to `['0','0']` on failure.  The model parses
canonical (whitespace-free) JSON string lists; anything else is a parse
failure, which in both call sites degrades to the `["0","0"]` fallback. -/

/-- Consume the characters of a JSON string body up to the closing quote.
`acc` holds the characters read so far, reversed. -/
def parseStrChars : List Char → List Char → Option (String × List Char)
  | _, [] => none
  | acc, c :: rest =>
      if c = '"' then some (⟨acc.reverse⟩, rest) else parseStrChars (c :: acc) rest

/-- Parse the items of a JSON string list after the opening `[`: a
comma-separated sequence of quoted strings closed by `]` at end of input.
The fuel argument (one unit per item) keeps the recursion structural; the
caller passes the input length, which always suffices since every item
consumes at least one character. -/
def parseItemsF : ℕ → List Char → Option (List String)
  | 0, _ => none
  | fuel + 1, cs =>
      match cs with
      | '"' :: rest =>
          match parseStrChars [] rest with
          | some (s, [']']) => some [s]
          | some (s, ',' :: more) => (parseItemsF fuel more).map (fun l => s :: l)
          | _ => none
      | _ => none

/-- `json.loads` restricted to canonical JSON lists of strings, as needed by
the `outcomePrices` normalization; any other input is a parse failure. -/
def jsonParseStrList (s : String) : Option (List String) :=
  match s.data with
  | '[' :: rest => if rest = [']'] then some [] else parseItemsF rest.length rest
  | _ => none

/-- The `outcomePrices` normalization shared by `get_market_details` and
`get_high_conviction_events`: a native list is used as-is; a string is
JSON-parsed, with `['0','0']` as the fallback on parse failure. -/
def normalizePrices : PriceField → List String
  | .str s => (jsonParseStrList s).getD ["0", "0"]
  | .list l => l

/-- The items of the canonical (compact) JSON encoding of a list of strings,
after the opening `[`: each string quoted, comma-separated, closed by `]`. -/
def encodeItems : List String → List Char
  | [] => [']']
  | [s] => '"' :: s.data ++ ['"', ']']
  | s :: t :: rest => '"' :: s.data ++ ['"', ','] ++ encodeItems (t :: rest)

/-- The canonical (compact, escape-free) JSON encoding of a list of strings,
e.g. the upstream's string-encoded `outcomePrices` payloads. -/
def jsonEncodeStrList (L : List String) : String := ⟨'[' :: encodeItems L⟩

lemma stringMkData (s : String) : String.mk s.data = s := by
  cases s
  rfl

lemma parseStrChars_spec :
    ∀ (cs acc tail : List Char), (∀ c ∈ cs, c ≠ '"') →
      parseStrChars acc (cs ++ '"' :: tail) = some (⟨acc.reverse ++ cs⟩, tail) := by
  intro cs
  induction cs with
  | nil =>
      intro acc tail _
      simp [parseStrChars]
  | cons c cs ih =>
      intro acc tail h
      have hc : c ≠ '"' := h c (List.mem_cons_self _ _)
      show parseStrChars acc (c :: (cs ++ '"' :: tail)) = _
      rw [parseStrChars, if_neg hc, ih (c :: acc) tail
        (fun c' h' => h c' (List.mem_cons_of_mem _ h'))]
      simp

lemma parseItemsF_encode :
    ∀ (L : List String) (fuel : ℕ), L ≠ [] → L.length ≤ fuel →
      (∀ s ∈ L, ∀ c ∈ s.data, c ≠ '"') →
      parseItemsF fuel (encodeItems L) = some L := by
  intro L
  induction L with
  | nil => intro fuel hne _ _; exact absurd rfl hne
  | cons s rest ih =>
      intro fuel _ hlen h
      obtain ⟨f, rfl⟩ : ∃ f, fuel = f + 1 := ⟨fuel - 1, by simp at hlen; omega⟩
      have hs : ∀ c ∈ s.data, c ≠ '"' := h s (List.mem_cons_self _ _)
      cases rest with
      | nil =>
          show parseItemsF (f + 1) ('"' :: (s.data ++ ['"', ']'])) = some [s]
          rw [parseItemsF]
          have hp : parseStrChars [] (s.data ++ '"' :: [']']) = some (⟨s.data⟩, [']']) := by
            rw [parseStrChars_spec s.data [] [']'] hs]
            simp
          simp only [hp]
      | cons t rest' =>
          have hassoc : s.data ++ ['"', ','] ++ encodeItems (t :: rest')
              = s.data ++ '"' :: ',' :: encodeItems (t :: rest') := by
            simp
          show parseItemsF (f + 1)
              ('"' :: (s.data ++ ['"', ','] ++ encodeItems (t :: rest'))) = some (s :: t :: rest')
          rw [parseItemsF, hassoc]
          have hp : parseStrChars [] (s.data ++ '"' :: (',' :: encodeItems (t :: rest')))
              = some (⟨s.data⟩, ',' :: encodeItems (t :: rest')) := by
            rw [parseStrChars_spec s.data [] (',' :: encodeItems (t :: rest')) hs]
            simp
          simp only [hp]
          have hrec : parseItemsF f (encodeItems (t :: rest')) = some (t :: rest') := by
            refine ih f (by simp) ?_ ?_
            · simp at hlen ⊢
              omega
            · intro s' h' c' hc'
              exact h s' (List.mem_cons_of_mem _ h') c' hc'
          simp [hrec, stringMkData]

lemma encodeItems_ne_close : ∀ (s : String) (rest : List String),
    encodeItems (s :: rest) ≠ [']'] := by
  intro s rest
  cases rest with
  | nil => simp [encodeItems]
  | cons t r => simp [encodeItems]

lemma encodeItems_length (L : List String) : L.length ≤ (encodeItems L).length := by
  induction L with
  | nil => simp [encodeItems]
  | cons s rest ih =>
      cases rest with
      | nil => simp [encodeItems]
      | cons t r =>
          simp only [encodeItems, List.length_cons, List.length_append] at ih ⊢
          omega

lemma jsonParse_encode (L : List String) (h : ∀ s ∈ L, ∀ c ∈ s.data, c ≠ '"') :
    jsonParseStrList (jsonEncodeStrList L) = some L := by
  cases L with
  | nil => rfl
  | cons s rest =>
      show jsonParseStrList ⟨'[' :: encodeItems (s :: rest)⟩ = some (s :: rest)
      rw [jsonParseStrList]
      simp only [if_neg (encodeItems_ne_close s rest)]
      exact parseItemsF_encode (s :: rest) (encodeItems (s :: rest)).length
        (by simp) (encodeItems_length _) h

/-! ### The conviction filter (`get_high_conviction_events`) -/

/-- One element of the list built by `get_high_conviction_events`:
`{title, slug, max_price, liquidity, end_date}` (`title`/`slug` come from
`event.get(...)` with no default and so may be absent). -/
structure ConvictionEntry where
  title : Option String
  slug : Option String
  max_price : ℚ
  liquidity : ℚ
  end_date : String
deriving DecidableEq, Repr

/-- Python's binary `max` on two numbers: the second argument wins only when
it is strictly greater.  `max(prices)` in the source folds this over the
parsed prices. -/
def pymax (a b : ℚ) : ℚ := if a < b then b else a

lemma pymax_eq_max (a b : ℚ) : pymax a b = max a b := by
  unfold pymax
  rcases lt_or_ge a b with h | h
  · simp [h, max_eq_right h.le]
  · simp [not_lt.mpr h, max_eq_left h]

/-- The per-event body of the loop in `get_high_conviction_events`.
`none` models `float(...)` raising on an unparseable `liquidity` field,
which the enclosing `try/except` turns into a `None` result for the whole
call; `some none` is a `continue`; `some (some e)` appends `e`. -/
def convictionStep (ev : JEvent) : Option (Option ConvictionEntry) :=
  match ev.markets with
  | [] => some none
  | market :: _ =>
      match parseDecimal (market.liquidity.getD "0") with
      | none => none
      | some liquidity =>
          if liquidity < 500000 then some none
          else
            let outcome_prices := normalizePrices (market.outcomePrices.getD (.list ["0", "0"]))
            if outcome_prices.length < 1 then some none
            else
              match outcome_prices.filterMap parseDecimal with
              | [] => some none
              | p :: ps =>
                  let max_price := ps.foldl pymax p
                  if max_price > 94/100 then
                    some (some { title := ev.title, slug := ev.slug,
                                 max_price := max_price, liquidity := liquidity,
                                 end_date := market.endDateIso.getD "N/A" })
                  else some none

/-- `get_high_conviction_events` on an already-fetched batch: the loop over
`events`, aborting to `None` if a `float(...)` conversion raises, otherwise
collecting the qualifying entries in batch order. -/
def getHighConvictionEvents (events : List JEvent) : Option (List ConvictionEntry) :=
  (events.mapM convictionStep).map List.reduceOption

lemma getHigh_singleton (ev : JEvent) :
    getHighConvictionEvents [ev] = (convictionStep ev).map Option.toList := by
  cases h : convictionStep ev with
  | none => simp [getHighConvictionEvents, List.mapM, List.mapM.loop, h]
  | some r =>
      cases r with
      | none => simp [getHighConvictionEvents, List.mapM, List.mapM.loop, h]
      | some e => simp [getHighConvictionEvents, List.mapM, List.mapM.loop, h]

/-! ### The tracked-market digest (`get_market_details` / `daily_market_update`)

`daily_market_update` iterates over the configured slug list, fetching each
slug's market details independently; a failed fetch contributes a failure
line, a successful one contributes the title/price/volume block.  Prices are
formatted with Python `f"{x:.1%}"` and volumes with `f"${x:,.0f}"`; the
rounding is modelled as exact round-half-to-even on the rational values. -/

/-- The slugs tracked by the digest (`TARGET_EVENT_SLUGS`). -/
def TARGET_EVENT_SLUGS : List String :=
  ["trump-out-as-president-by-march-31", "trump-out-as-president-before-2027"]

/-- The record returned by `get_market_details` on success: the raw decimal
strings are kept, since callers convert them with `float(...)` later. -/
structure Details where
  title : String
  yes_price : String
  volume : String
  liquidity : String
deriving DecidableEq, Repr

/-- `get_market_details(slug)`, given the fetched response for that slug.
A `none` response models a transport/JSON failure, caught by the function's
`except` which returns `None`; likewise an empty result or an event without
sub-markets gives `None`. -/
def getMarketDetails (resp : Option (List JEvent)) : Option Details :=
  match resp with
  | none => none
  | some [] => none
  | some (event :: _) =>
      match event.markets with
      | [] => none
      | market :: _ =>
          let op := normalizePrices (market.outcomePrices.getD (.list ["0", "0"]))
          let yes_price :=
            match op with
            | p :: _ => p
            | [] => "0"
          some { title := event.title.getD "Unknown",
                 yes_price := yes_price,
                 volume := market.volume.getD "0",
                 liquidity := market.liquidity.getD "0" }

/-- Round a rational to the nearest integer, ties to even (the rounding of
Python's fixed-precision float formatting, taken on the exact value). -/
def roundHalfEven (q : ℚ) : ℤ :=
  let f := ⌊q⌋
  let r := q - f
  if r < 1/2 then f
  else if 1/2 < r then f + 1
  else if f % 2 = 0 then f else f + 1

/-- Left-pad a three-digit group with zeros. -/
def pad3 (k : ℕ) : String :=
  if k < 10 then "00" ++ toString k
  else if k < 100 then "0" ++ toString k
  else toString k

/-- Decimal digits of a natural number grouped in threes with commas
(Python's `,` format option). -/
def commaGroupNat (n : ℕ) : String :=
  if h : n < 1000 then toString n
  else commaGroupNat (n / 1000) ++ "," ++ pad3 (n % 1000)
decreasing_by
  exact Nat.div_lt_self (by omega) (by norm_num)

/-- Python `f"{x:,.0f}"`: round to an integer and comma-group. -/
def fmtComma0 (q : ℚ) : String :=
  let n := roundHalfEven q
  if n < 0 then "-" ++ commaGroupNat n.natAbs else commaGroupNat n.natAbs

/-- Render tenths as a one-decimal percentage, e.g. `950 ↦ "95.0%"`. -/
def fmtTenths (k : ℕ) : String := toString (k / 10) ++ "." ++ toString (k % 10) ++ "%"

/-- Python `f"{x:.1%}"`: value times 100 with one decimal place and a
percent sign. -/
def fmtPercent1 (q : ℚ) : String :=
  let n := roundHalfEven (q * 1000)
  if n < 0 then "-" ++ fmtTenths n.natAbs else fmtTenths n.natAbs

/-- The lines a successfully fetched slug contributes to the digest. -/
def successBlock (title : String) (yes_price volume : ℚ) : String :=
  "**" ++ title ++ "**\n" ++ "Yes Price: " ++ fmtPercent1 yes_price ++ "\n"
    ++ "24h Volume: $" ++ fmtComma0 volume ++ "\n\n"

/-- The failure line for a slug whose fetch failed. -/
def failLine (slug : String) : String := "❌ Could not fetch data for " ++ slug ++ "\n\n"

/-- Header of the daily digest message. -/
def digestHeader : String := "📊 **Daily Trump Event Update**\n\n"

/-- `daily_market_update` over a tracked-slug list, given the per-slug fetch
results: a left fold appending one block per slug to the header.  The `none`
result models the one way the loop body can raise — `float(...)` on an
unparseable fetched price or volume (the loop has no `try` of its own). -/
def dailyMarketUpdate (fetch : String → Option (List JEvent)) (slugs : List String) :
    Option String :=
  slugs.foldlM
    (fun msg slug =>
      match getMarketDetails (fetch slug) with
      | some details =>
          match parseDecimal details.yes_price, parseDecimal details.volume with
          | some yp, some vol => some (msg ++ successBlock details.title yp vol)
          | _, _ => none
      | none => some (msg ++ failLine slug))
    digestHeader

/-- The text block one slug contributes to the digest (`none` when the
float conversion on its fetched details would raise). -/
def blockOf (fetch : String → Option (List JEvent)) (slug : String) : Option String :=
  match getMarketDetails (fetch slug) with
  | some details =>
      match parseDecimal details.yes_price, parseDecimal details.volume with
      | some yp, some vol => some (successBlock details.title yp vol)
      | _, _ => none
  | none => some (failLine slug)

/-! ### The 8-hour report's anchored first run (`main`)

`main` computes `target_time = now.replace(hour=10, minute=15, second=0,
microsecond=0)`, adds one day when `target_time <= now`, and passes
`first=(target_time - now).total_seconds()` with `interval=28800` to
`run_repeating`.  Only the time of day matters, so `now` is modelled as the
microseconds elapsed since today's midnight UTC. -/

/-- The `first_run_seconds` computed at startup: seconds until 10:15 UTC
today, or until 10:15 UTC tomorrow when that moment is not strictly in the
future. -/
def firstRunSeconds (nowMicro : ℕ) : ℚ :=
  let target : ℚ := 36900000000
  let now : ℚ := nowMicro
  let target' := if target ≤ now then target + 86400000000 else target
  (target' - now) / 1000000

/-- Firing times (seconds after startup) of
`run_repeating(daily_95_report, interval=28800, first=first_run_seconds)`:
the anchored first run followed by fixed 28800-second repeats, never
re-anchored. -/
def report95RunTime (nowMicro : ℕ) (k : ℕ) : ℚ :=
  firstRunSeconds nowMicro + k * 28800

/-! ### End-date parsing and the 24-hour restriction (`cmd_95_1d`)

`cmd_95_1d` parses each entry's `end_date` with
`datetime.strptime(end_date_str, '%Y-%m-%d').replace(tzinfo=timezone.utc)`,
i.e. as a calendar date at midnight UTC, and keeps the entry iff
`now <= end_date <= now + timedelta(hours=24)`.  Times are modelled as
rational seconds since the Unix epoch. -/

/-- Split a character list at every `'-'` (the separators of the
`'%Y-%m-%d'` format). -/
def splitDash : List Char → List (List Char)
  | [] => [[]]
  | c :: rest =>
      match splitDash rest with
      | [] => [[]]
      | g :: gs => if c = '-' then [] :: g :: gs else (c :: g) :: gs

/-- Gregorian leap-year rule, as validated by `datetime`. -/
def isLeapYear (y : ℕ) : Bool := decide ((y % 4 = 0 ∧ y % 100 ≠ 0) ∨ y % 400 = 0)

/-- Number of days in a month, as validated by `datetime`. -/
def daysInMonth (y m : ℕ) : ℕ :=
  if m = 2 then (if isLeapYear y then 29 else 28)
  else if m = 4 ∨ m = 6 ∨ m = 9 ∨ m = 11 then 30 else 31

/-- Days since 1970-01-01 of a Gregorian date (civil-calendar day count;
requires `1 ≤ y`, `1 ≤ m ≤ 12`). -/
def daysFromCivil (y m d : ℕ) : ℤ :=
  let y' := if m ≤ 2 then y - 1 else y
  let era := y' / 400
  let yoe := y' % 400
  let mp := if 2 < m then m - 3 else m + 9
  let doy := (153 * mp + 2) / 5 + d - 1
  let doe := yoe * 365 + yoe / 4 - yoe / 100 + doy
  (era : ℤ) * 146097 + (doe : ℤ) - 719468

/-- `datetime.strptime(s, '%Y-%m-%d')` reduced to its observable content:
exactly four year digits (CPython compiles `%Y` as `\d\d\d\d`), one or two
month and day digits (`%m`/`%d` are `\d{1,2}`) separated by `-`, with
calendar validation; the result is the date's day number since the epoch
(the parsed datetime is midnight UTC of that day).  Any other input raises,
modelled as `none`. -/
def parseDateYMD (s : String) : Option ℤ :=
  match splitDash s.data with
  | [yc, mc, dc] =>
      if yc.length = 4 ∧ yc.all Char.isDigit ∧
         mc ≠ [] ∧ mc.all Char.isDigit ∧ mc.length ≤ 2 ∧
         dc ≠ [] ∧ dc.all Char.isDigit ∧ dc.length ≤ 2 then
        let y := digitsToNat yc
        let m := digitsToNat mc
        let d := digitsToNat dc
        if 1 ≤ y ∧ 1 ≤ m ∧ m ≤ 12 ∧ 1 ≤ d ∧ d ≤ daysInMonth y m then
          some (daysFromCivil y m d)
        else none
      else none
  | _ => none

/-- The per-entry test of the filtering loop in `cmd_95_1d`: skip `'N/A'`,
skip a date `strptime` rejects, otherwise keep iff
`now <= end_date <= now + 24h` (both bounds inclusive). -/
def keepEnding (now : ℚ) (e : ConvictionEntry) : Bool :=
  if e.end_date = "N/A" then false
  else
    match parseDateYMD e.end_date with
    | some days => decide (now ≤ 86400 * (days : ℚ) ∧ 86400 * (days : ℚ) ≤ now + 86400)
    | none => false

/-- The `filtered_events` list built by `cmd_95_1d` from the high-conviction
entries. -/
def filterEndingWithin24h (entries : List ConvictionEntry) (now : ℚ) : List ConvictionEntry :=
  entries.filter (keepEnding now)

/-! ### Concrete events used by the witnesses -/

/-- A concrete event with integer identifier 3 (a batch's newest entry). -/
def evA : JEvent := { id := .int 3, title := some "A", slug := some "a", markets := [] }

/-- A concrete event with integer identifier 1. -/
def evB : JEvent := { id := .int 1, title := some "B", slug := some "b", markets := [] }

/-- A concrete event with integer identifier 2 (a batch's oldest entry). -/
def evC : JEvent := { id := .int 2, title := some "C", slug := some "c", markets := [] }

/-- A concrete event whose `id` key is absent (Python `event.get('id')` is
`None`). -/
def evNone : JEvent := { id := .none, title := some "N", slug := some "n", markets := [] }

/-- A market with liquidity exactly 500000 and a 0.95 best outcome price. -/
def mBoundary : JMarket :=
  { outcomePrices := some (.list ["0.95", "0.05"]), liquidity := some "500000",
    volume := some "1000", endDateIso := some "2026-01-01" }

/-- An event whose only sub-market is `mBoundary`. -/
def evBoundary : JEvent :=
  { id := .str "b1", title := some "Boundary", slug := some "boundary",
    markets := [mBoundary] }

/-- A market with high liquidity and best outcome price 0.9401. -/
def m9401 : JMarket :=
  { outcomePrices := some (.list ["0.9401", "0.0599"]), liquidity := some "600000",
    volume := some "0", endDateIso := some "2026-01-02" }

/-- An event whose only sub-market is `m9401`. -/
def ev9401 : JEvent :=
  { id := .str "p1", title := some "P", slug := some "p", markets := [m9401] }

/-- A market with liquidity 1000, far below the threshold. -/
def mLow : JMarket :=
  { outcomePrices := some (.list ["0.99", "0.01"]), liquidity := some "1000",
    volume := some "0", endDateIso := some "2026-01-03" }

/-- An event whose only sub-market is `mLow`. -/
def evLow : JEvent :=
  { id := .str "l1", title := some "L", slug := some "l", markets := [mLow] }

/-! ### Claim theorems about the seen-set tracker -/

/-- C1: if every identifier in a batch is already in the seen set then
`check_new_events` on that batch sends zero new-market notifications, and —
over any sequence of `initialize`/`check_new_events` calls from any starting
seen set — no identifier ever appears twice in the cumulative notification
trace. -/
theorem checkNew_no_repeat_reports :
    (∀ (seen : Finset PyId) (events : List JEvent),
        (∀ ev ∈ events, ev.id ∈ seen) → (checkNewEvents seen events).2 = [])
  ∧ ∀ (seen : Finset PyId) (ops : List MonOp),
      ((runOps seen ops).2.map JEvent.id).Nodup := by
  constructor
  · intro seen events h
    have h' : ∀ ev ∈ events.reverse, ev.id ∈ (seen, ([] : List JEvent)).1 := by
      intro ev hev
      exact h ev (List.mem_reverse.mp hev)
    show (events.reverse.foldl checkStep (seen, [])).2 = []
    rw [checkFold_all_seen events.reverse (seen, []) h']
  · intro seen ops
    exact (runOps_spec ops (seen, []) (by simp) (by simp)).1

/-- Witness for C1 at a concrete input: a batch whose only identifier is
already seen produces no notification. -/
theorem checkNew_no_repeat_reports_witness :
    (checkNewEvents {PyId.int 3} [evA]).2 = [] :=
  checkNew_no_repeat_reports.1 {PyId.int 3} [evA] (by decide)

/-- C2: on a batch fetched newest-first whose identifiers are all truthy,
pairwise distinct and unseen, and with a non-empty seen set,
`check_new_events` notifies exactly the batch in reverse (oldest-first)
order. -/
theorem checkNew_oldest_first_order :
    ∀ (seen : Finset PyId) (events : List JEvent),
      seen.Nonempty →
      (∀ ev ∈ events, truthyId ev.id ∧ ev.id ∉ seen) →
      (events.map JEvent.id).Nodup →
      (checkNewEvents seen events).2 = events.reverse := by
  intro seen events hne h hnd
  have h' : ∀ ev ∈ events.reverse, truthyId ev.id ∧ ev.id ∉ seen := by
    intro ev hev
    exact h ev (List.mem_reverse.mp hev)
  have hnd' : (events.reverse.map JEvent.id).Nodup := by
    rw [List.map_reverse]
    exact List.nodup_reverse.mpr hnd
  show (events.reverse.foldl checkStep (seen, [])).2 = events.reverse
  rw [checkFold_all_new events.reverse seen [] hne h' hnd']
  simp

/-- Witness for C2: the spec's example — batch with identifiers `[3,1,2]`
newest-first and a disjoint non-empty seen set notifies in order `2,1,3`. -/
theorem checkNew_oldest_first_order_witness :
    (checkNewEvents {PyId.int 99} [evA, evB, evC]).2 = [evC, evB, evA] :=
  checkNew_oldest_first_order {PyId.int 99} [evA, evB, evC]
    (by decide) (by decide) (by decide)

/-- C7: the seen set is monotone append-only — both `check_new_events` and
the startup initialization only ever grow it; no identifier (in particular
one absent from the current batch) is ever removed. -/
theorem seen_set_monotone :
    ∀ (seen : Finset PyId) (events : List JEvent),
      seen ⊆ (checkNewEvents seen events).1 ∧ seen ⊆ initSeenIds seen events := by
  intro seen events
  exact ⟨checkNewEvents_seen_mono seen events, initSeenIds_mono seen events⟩

/-- Witness for C7: an identifier absent from the processed batch survives
the call. -/
theorem seen_set_monotone_witness :
    PyId.int 99 ∈ (checkNewEvents {PyId.int 99} [evB]).1 :=
  (seen_set_monotone {PyId.int 99} [evB]).1 (by decide)

/-- C10: an event whose identifier is falsy (absent/`None`, empty string or
0) is never notified by `check_new_events` and never enters the seen set
through it (its membership is unchanged); only the startup initialization
adds identifiers without that guard, so it records even falsy ones. -/
theorem falsy_id_skipped :
    (∀ (seen : Finset PyId) (events : List JEvent) (i : PyId), ¬ truthyId i →
        (i ∈ (checkNewEvents seen events).1 ↔ i ∈ seen))
  ∧ (∀ (seen : Finset PyId) (events : List JEvent),
        ∀ ev ∈ (checkNewEvents seen events).2, truthyId ev.id)
  ∧ (∀ (seen : Finset PyId) (events : List JEvent),
        ∀ ev ∈ events, ev.id ∈ initSeenIds seen events) := by
  refine ⟨?_, ?_, ?_⟩
  · intro seen events i hi
    exact (checkFold_spec events.reverse (seen, [])).2.1 i hi
  · intro seen events ev hev
    exact ((checkNewEvents_trace_spec seen events).2 ev hev).1
  · intro seen events
    exact initSeenIds_mem seen events

/-- Witness for C10: an event with an absent identifier leaves the seen set
without that identifier after a check, while initialization does record it. -/
theorem falsy_id_skipped_witness :
    (PyId.none ∈ (checkNewEvents ∅ [evNone]).1 ↔ PyId.none ∈ (∅ : Finset PyId))
    ∧ PyId.none ∈ initSeenIds ∅ [evNone] :=
  ⟨falsy_id_skipped.1 ∅ [evNone] PyId.none (by decide),
   falsy_id_skipped.2.2 ∅ [evNone] evNone (by decide)⟩

/-! ### Claim theorems about the conviction filter -/

lemma parse500000 : parseDecimal "500000" = some 500000 := by
  simp [parseDecimal, digitsToNat, digitVal]

lemma parse1000 : parseDecimal "1000" = some 1000 := by
  simp [parseDecimal, digitsToNat, digitVal]

lemma parse600000 : parseDecimal "600000" = some 600000 := by
  simp [parseDecimal, digitsToNat, digitVal]

lemma parse095 : parseDecimal "0.95" = some (19/20) := by
  simp [parseDecimal, digitsToNat, digitVal]
  norm_num

lemma parse005 : parseDecimal "0.05" = some (1/20) := by
  simp [parseDecimal, digitsToNat, digitVal]
  norm_num

lemma parse9401 : parseDecimal "0.9401" = some (9401/10000) := by
  simp [parseDecimal, digitsToNat, digitVal]
  norm_num

lemma parse0599 : parseDecimal "0.0599" = some (599/10000) := by
  simp [parseDecimal, digitsToNat, digitVal]
  norm_num

/-- C3 counterexample: a market whose first sub-market has liquidity exactly
500000 (and a qualifying price) is NOT excluded by the conviction filter —
the source skips only when `liquidity < 500_000`, so the boundary value
passes the gate and the market appears in the result. -/
theorem conviction_500k_boundary_included_cex :
    getHighConvictionEvents [evBoundary] =
      some [{ title := some "Boundary", slug := some "boundary",
              max_price := 19/20, liquidity := 500000, end_date := "2026-01-01" }] := by
  rw [getHigh_singleton]
  have hfm : (normalizePrices ((mBoundary.outcomePrices).getD (.list ["0", "0"]))).filterMap
      parseDecimal = [19/20, 1/20] := by
    simp [mBoundary, normalizePrices, List.filterMap_cons, parse095, parse005]
  have h : convictionStep evBoundary =
      some (some { title := some "Boundary", slug := some "boundary",
                   max_price := 19/20, liquidity := 500000, end_date := "2026-01-01" }) := by
    have hm : evBoundary.markets = mBoundary :: [] := rfl
    have hlq : parseDecimal ((mBoundary.liquidity).getD "0") = some 500000 := parse500000
    have hlen : ¬ (normalizePrices ((mBoundary.outcomePrices).getD (.list ["0", "0"]))).length
        < 1 := by
      simp [mBoundary, normalizePrices]
    simp only [convictionStep, hm, hlq, hfm]
    rw [if_neg (by norm_num : ¬ (500000 : ℚ) < 500000), if_neg hlen,
      if_pos (by norm_num [pymax] : (94 : ℚ)/100 < [(1 : ℚ)/20].foldl pymax (19/20))]
    norm_num [pymax, evBoundary, mBoundary]
  rw [h]
  rfl

/-- C3 (amended): the liquidity gate of `get_high_conviction_events` skips a
market iff its first sub-market's liquidity is strictly below 500000; the
boundary value 500000 itself passes the gate, so such a market is included
whenever its maximum parsed outcome price exceeds 0.94. -/
theorem conviction_liquidity_gate :
    (∀ (ev : JEvent) (m : JMarket) (rest : List JMarket) (lq : ℚ),
        ev.markets = m :: rest →
        parseDecimal (m.liquidity.getD "0") = some lq →
        lq < 500000 →
        getHighConvictionEvents [ev] = some [])
  ∧ (∀ (ev : JEvent) (m : JMarket) (rest : List JMarket) (p : ℚ) (ps : List ℚ),
        ev.markets = m :: rest →
        parseDecimal (m.liquidity.getD "0") = some 500000 →
        (normalizePrices (m.outcomePrices.getD (.list ["0", "0"]))).filterMap parseDecimal
          = p :: ps →
        94/100 < ps.foldl pymax p →
        getHighConvictionEvents [ev] =
          some [{ title := ev.title, slug := ev.slug, max_price := ps.foldl pymax p,
                  liquidity := 500000, end_date := m.endDateIso.getD "N/A" }]) := by
  constructor
  · intro ev m rest lq hm hlq hlt
    rw [getHigh_singleton]
    have h : convictionStep ev = some none := by
      simp only [convictionStep, hm, hlq]
      simp [hlt]
    rw [h]
    rfl
  · intro ev m rest p ps hm hlq hfm hgt
    rw [getHigh_singleton]
    have hne : normalizePrices (m.outcomePrices.getD (.list ["0", "0"])) ≠ [] := by
      intro h0
      rw [h0] at hfm
      simp at hfm
    have hlen : ¬ (normalizePrices (m.outcomePrices.getD (.list ["0", "0"]))).length < 1 := by
      rw [Nat.lt_one_iff, List.length_eq_zero]
      exact hne
    have h : convictionStep ev =
        some (some { title := ev.title, slug := ev.slug, max_price := ps.foldl pymax p,
                     liquidity := 500000, end_date := m.endDateIso.getD "N/A" }) := by
      simp only [convictionStep, hm, hlq, hfm]
      rw [if_neg (by norm_num), if_neg hlen, if_pos hgt]
    rw [h]
    rfl

/-- Witness for the amended C3: a concrete market with liquidity 1000 is
excluded by the gate. -/
theorem conviction_liquidity_gate_witness :
    getHighConvictionEvents [evLow] = some [] :=
  conviction_liquidity_gate.1 evLow mLow [] 1000 rfl
    (by simp [mLow]; exact parse1000)
    (by norm_num)

/-- C4: for a market that passes the liquidity gate and has at least one
parseable outcome price, the conviction filter includes it iff the maximum
parsed outcome price is strictly greater than 0.94. -/
theorem conviction_price_strict_threshold :
    ∀ (ev : JEvent) (m : JMarket) (rest : List JMarket) (lq p : ℚ) (ps : List ℚ),
      ev.markets = m :: rest →
      parseDecimal (m.liquidity.getD "0") = some lq →
      ¬ lq < 500000 →
      (normalizePrices (m.outcomePrices.getD (.list ["0", "0"]))).filterMap parseDecimal
        = p :: ps →
      ((∃ e, getHighConvictionEvents [ev] = some [e]) ↔ 94/100 < ps.foldl pymax p) := by
  intro ev m rest lq p ps hm hlq hge hfm
  rw [getHigh_singleton]
  have hne : normalizePrices (m.outcomePrices.getD (.list ["0", "0"])) ≠ [] := by
    intro h0
    rw [h0] at hfm
    simp at hfm
  have hlen : ¬ (normalizePrices (m.outcomePrices.getD (.list ["0", "0"]))).length < 1 := by
    rw [Nat.lt_one_iff, List.length_eq_zero]
    exact hne
  by_cases hgt : 94/100 < ps.foldl pymax p
  · have h : convictionStep ev =
        some (some { title := ev.title, slug := ev.slug, max_price := ps.foldl pymax p,
                     liquidity := lq, end_date := m.endDateIso.getD "N/A" }) := by
      simp only [convictionStep, hm, hlq, hfm]
      rw [if_neg hge, if_neg hlen, if_pos hgt]
    rw [h]
    simp [hgt]
  · have h : convictionStep ev = some none := by
      simp only [convictionStep, hm, hlq, hfm]
      rw [if_neg hge, if_neg hlen, if_neg hgt]
    rw [h]
    simp [hgt]

/-- C6: outcome-price normalization is encoding-invariant — for every list
of escape-free strings (decimal strings in particular), parsing the string
holding its JSON encoding yields exactly the native list, and any string
that fails to parse falls back to `["0","0"]` instead of aborting. -/
theorem outcome_prices_encoding_invariant :
    (∀ L : List String, (∀ s ∈ L, ∀ c ∈ s.data, c ≠ '"' ∧ c ≠ '\\') →
        normalizePrices (.str (jsonEncodeStrList L)) = normalizePrices (.list L))
  ∧ ∀ s : String, jsonParseStrList s = none → normalizePrices (.str s) = ["0", "0"] := by
  constructor
  · intro L h
    show (jsonParseStrList (jsonEncodeStrList L)).getD ["0", "0"] = L
    rw [jsonParse_encode L (fun s hs c hc => (h s hs c hc).1)]
    rfl
  · intro s h
    show (jsonParseStrList s).getD ["0", "0"] = ["0", "0"]
    rw [h]
    rfl

/-- Witness for C6: the spec's example — the string-encoded
`"[\"0.05\",\"0.95\"]"` parses identically to the native list
`["0.05","0.95"]`. -/
theorem outcome_prices_encoding_invariant_witness :
    normalizePrices (.str (jsonEncodeStrList ["0.05", "0.95"]))
      = normalizePrices (.list ["0.05", "0.95"]) :=
  outcome_prices_encoding_invariant.1 ["0.05", "0.95"] (by decide)

/-- C5: the 24-hour restriction keeps exactly the events whose end-date
parses as a calendar date (midnight UTC) lying in the closed interval
`[now, now + 24h]`; entries with a missing (`'N/A'`) or unparseable
end-date are silently dropped. -/
theorem ending_within_24h_mem :
    ∀ (entries : List ConvictionEntry) (now : ℚ) (e : ConvictionEntry),
      e ∈ filterEndingWithin24h entries now ↔
        e ∈ entries ∧ e.end_date ≠ "N/A" ∧
        ∃ days : ℤ, parseDateYMD e.end_date = some days ∧
          now ≤ 86400 * (days : ℚ) ∧ 86400 * (days : ℚ) ≤ now + 86400 := by
  intro entries now e
  rw [filterEndingWithin24h, List.mem_filter]
  unfold keepEnding
  by_cases hna : e.end_date = "N/A"
  · simp [hna]
  · rw [if_neg hna]
    cases h : parseDateYMD e.end_date with
    | none => simp [h, hna]
    | some days => simp [h, hna, and_assoc]

/-- A concrete conviction entry ending on 1970-01-02. -/
def eWit : ConvictionEntry :=
  { title := some "W", slug := some "w", max_price := 1, liquidity := 600000,
    end_date := "1970-01-02" }

/-- Witness for C5: with `now` exactly midnight of 1970-01-02, an entry whose
end-date equals `now` is kept (inclusive lower bound). -/
theorem ending_within_24h_mem_witness :
    eWit ∈ filterEndingWithin24h [eWit] 86400 :=
  (ending_within_24h_mem [eWit] 86400 eWit).mpr
    ⟨by simp, by decide, 1, by decide, by norm_num, by norm_num⟩

/-- Witness for C4: a market with max price 0.9401 (above the threshold) is
included. -/
theorem conviction_price_strict_threshold_witness :
    ∃ e, getHighConvictionEvents [ev9401] = some [e] :=
  (conviction_price_strict_threshold ev9401 m9401 [] 600000 (9401/10000) [599/10000]
      rfl
      (by simp [m9401]; exact parse600000)
      (by norm_num)
      (by simp [m9401, normalizePrices, List.filterMap_cons, parse9401, parse0599])).mpr
    (by norm_num [pymax])

/-! ### Claim theorems about the digest and the scheduler anchor -/

lemma digestStep_eq (fetch : String → Option (List JEvent)) (msg slug : String) :
    (match getMarketDetails (fetch slug) with
      | some details =>
          match parseDecimal details.yes_price, parseDecimal details.volume with
          | some yp, some vol => some (msg ++ successBlock details.title yp vol)
          | _, _ => none
      | none => some (msg ++ failLine slug))
    = (blockOf fetch slug).map (fun b => msg ++ b) := by
  unfold blockOf
  cases getMarketDetails (fetch slug) with
  | none => rfl
  | some details =>
      dsimp only
      cases parseDecimal details.yes_price with
      | none => rfl
      | some yp =>
          cases parseDecimal details.volume with
          | none => rfl
          | some vol => rfl

lemma dailyMarketUpdate_eq (fetch : String → Option (List JEvent)) (slugs : List String) :
    dailyMarketUpdate fetch slugs
      = slugs.foldlM (fun msg slug => (blockOf fetch slug).map (fun b => msg ++ b))
          digestHeader := by
  unfold dailyMarketUpdate
  exact congrArg (fun f => List.foldlM f digestHeader slugs)
    (funext fun msg => funext fun slug => digestStep_eq fetch msg slug)

lemma dailyFold (fetch : String → Option (List JEvent)) :
    ∀ (slugs : List String) (pre : String),
      List.foldlM (fun msg slug => (blockOf fetch slug).map (fun b => msg ++ b)) pre slugs
        = (slugs.mapM (blockOf fetch)).map (fun bs => bs.foldl (fun a b => a ++ b) pre) := by
  intro slugs
  induction slugs with
  | nil => intro pre; rfl
  | cons slug slugs ih =>
      intro pre
      rw [List.foldlM_cons, List.mapM_cons]
      cases hb : blockOf fetch slug with
      | none => rfl
      | some b =>
          show List.foldlM _ (pre ++ b) slugs = _
          rw [ih (pre ++ b)]
          cases hm : slugs.mapM (blockOf fetch) with
          | none => rfl
          | some bs => rfl

/-- C8: the digest renders as the header followed by one block per slug in
the configured list order — the per-slug blocks are computed independently,
and a slug whose fetch fails contributes exactly its failure line (so one
slug's fetch failure never aborts the remaining slugs). -/
theorem digest_blocks_per_slug :
    (∀ (fetch : String → Option (List JEvent)) (slugs : List String),
        dailyMarketUpdate fetch slugs
          = (slugs.mapM (blockOf fetch)).map
              (fun bs => bs.foldl (fun a b => a ++ b) digestHeader))
  ∧ ∀ (fetch : String → Option (List JEvent)) (slug : String),
      getMarketDetails (fetch slug) = none → blockOf fetch slug = some (failLine slug) := by
  constructor
  · intro fetch slugs
    rw [dailyMarketUpdate_eq]
    exact dailyFold fetch slugs digestHeader
  · intro fetch slug h
    unfold blockOf
    rw [h]

lemma parse05 : parseDecimal "0.5" = some (1/2) := by
  simp [parseDecimal, digitsToNat, digitVal]
  norm_num

/-- A concrete sub-market with yes-price 0.5 and volume 1000. -/
def mDetail : JMarket :=
  { outcomePrices := some (.list ["0.5", "0.5"]), liquidity := some "1",
    volume := some "1000", endDateIso := Option.none }

/-- A concrete event carrying `mDetail`, titled `"T"`. -/
def evDetail : JEvent :=
  { id := .str "d", title := some "T", slug := some "b", markets := [mDetail] }

/-- A concrete fetch map: slug `"b"` succeeds with `evDetail`, every other
slug's fetch fails. -/
def fetchWit : String → Option (List JEvent) :=
  fun slug => if slug = "b" then some [evDetail] else Option.none

/-- Witness for C8: over the 2-slug list `["a", "b"]` where `"a"` fails and
`"b"` succeeds, the digest holds the failure line and the success block, in
list order, after the header. -/
theorem digest_blocks_per_slug_witness :
    dailyMarketUpdate fetchWit ["a", "b"]
      = some ((digestHeader ++ failLine "a") ++ successBlock "T" (1/2) 1000) := by
  have h1 : blockOf fetchWit "a" = some (failLine "a") :=
    digest_blocks_per_slug.2 fetchWit "a" (by rfl)
  have h2 : blockOf fetchWit "b" = some (successBlock "T" (1/2) 1000) := by
    have hd : getMarketDetails (fetchWit "b") =
        some { title := "T", yes_price := "0.5", volume := "1000", liquidity := "1" } := by
      rfl
    simp [blockOf, hd, parse05, parse1000]
  rw [digest_blocks_per_slug.1 fetchWit ["a", "b"]]
  rw [List.mapM_cons, List.mapM_cons, List.mapM_nil, h1, h2]
  rfl

/-- C9: the 8-hour report's first-run delay always targets the 10:15 UTC
anchor — it is `10:15 today − now` when that moment is still strictly in the
future and `10:15 tomorrow − now` otherwise, hence always positive and at
most 24 hours; subsequent runs repeat at exactly 28800 seconds with no
re-anchoring. -/
theorem report95_first_run_anchor :
    ∀ nowMicro : ℕ, nowMicro < 86400000000 →
      (0 < firstRunSeconds nowMicro ∧ firstRunSeconds nowMicro ≤ 86400)
      ∧ ((nowMicro : ℚ) < 36900000000 →
          firstRunSeconds nowMicro = (36900000000 - nowMicro) / 1000000)
      ∧ (36900000000 ≤ (nowMicro : ℚ) →
          firstRunSeconds nowMicro = (36900000000 + 86400000000 - nowMicro) / 1000000)
      ∧ ∀ k : ℕ, report95RunTime nowMicro (k + 1) - report95RunTime nowMicro k = 28800 := by
  intro nowMicro h
  have hnow : (nowMicro : ℚ) < 86400000000 := by exact_mod_cast h
  have hnn : (0 : ℚ) ≤ (nowMicro : ℚ) := Nat.cast_nonneg _
  have hk : ∀ k : ℕ, report95RunTime nowMicro (k + 1) - report95RunTime nowMicro k = 28800 := by
    intro k
    unfold report95RunTime
    push_cast
    ring
  by_cases hc : (36900000000 : ℚ) ≤ (nowMicro : ℚ)
  · have he : firstRunSeconds nowMicro
        = (36900000000 + 86400000000 - (nowMicro : ℚ)) / 1000000 := by
      simp only [firstRunSeconds]
      rw [if_pos hc]
    refine ⟨⟨?_, ?_⟩, ?_, fun _ => he, hk⟩
    · rw [he]
      apply div_pos
      · linarith
      · norm_num
    · rw [he, div_le_iff₀ (by norm_num : (0 : ℚ) < 1000000)]
      linarith
    · intro hlt
      exact absurd hc (not_le.mpr hlt)
  · have hlt : (nowMicro : ℚ) < 36900000000 := not_le.mp hc
    have he : firstRunSeconds nowMicro = (36900000000 - (nowMicro : ℚ)) / 1000000 := by
      simp only [firstRunSeconds]
      rw [if_neg hc]
    refine ⟨⟨?_, ?_⟩, fun _ => he, ?_, hk⟩
    · rw [he]
      apply div_pos
      · linarith
      · norm_num
    · rw [he, div_le_iff₀ (by norm_num : (0 : ℚ) < 1000000)]
      linarith
    · intro hge
      exact absurd hge hc

/-- Witness for C9: at startup exactly at midnight UTC the first-run delay is
positive and at most 24 hours. -/
theorem report95_first_run_anchor_witness :
    0 < firstRunSeconds 0 ∧ firstRunSeconds 0 ≤ 86400 :=
  (report95_first_run_anchor 0 (by norm_num)).1
